import Mathlib

/-
  Verification of the content-extraction and inline-formatting engine of the
  GitHub-Copilot-Updates repository (scripts/markdown_to_ppt.py and
  scripts/markdown_to_pandoc.py), as a shallow embedding over `List Char`.

  The embedding follows the Python source: `re` searches over the whole text are
  modelled as explicit left-to-right scans with the same backtracking semantics,
  Python strings are `List Char`, `str.strip()` is `pyStrip`, and network fetches
  are abstracted as explicit parameters (a per-attempt outcome list for the
  retrying fetcher, a `List Char → Option (List Char)` function for the parser).
-/

namespace GhUpdates

/-- The characters matched by Python's `\s` and removed by `str.strip()`. -/
def isPySpace (c : Char) : Bool :=
  c = ' ' || c = '\t' || c = '\n' || c = '\r' || c = Char.ofNat 11 || c = Char.ofNat 12

/-- `str.lstrip()`. -/
def ltrim (l : List Char) : List Char := l.dropWhile isPySpace

/-- `str.rstrip()`. -/
def rtrim (l : List Char) : List Char := (l.reverse.dropWhile isPySpace).reverse

/-- Python `str.strip()`. -/
def pyStrip (l : List Char) : List Char := rtrim (ltrim l)

/-- Python `str.split('\n')`. -/
def splitNl : List Char → List (List Char)
  | [] => [[]]
  | c :: rest =>
    if c = '\n' then [] :: splitNl rest
    else
      match splitNl rest with
      | [] => [[c]]
      | g :: gs => (c :: g) :: gs

/-- Left inverse of `splitNl`: join line fragments with newlines. -/
def joinNl : List (List Char) → List Char
  | [] => []
  | [g] => g
  | g :: gs => g ++ '\n' :: joinNl gs

/-- Python `str.find(needle)` (auxiliary, carrying the current index). -/
def strFindAux (needle : List Char) : List Char → Nat → Option Nat
  | [], i => if needle.isEmpty then some i else none
  | c :: t, i => if needle.isPrefixOf (c :: t) then some i else strFindAux needle t (i + 1)

/-- Python `str.find(needle)`: index of the first occurrence, `none` when absent. -/
def strFind (needle hay : List Char) : Option Nat := strFindAux needle hay 0

/-- Python `str.find(needle, start)` (absolute index). -/
def strFindFrom (needle hay : List Char) (start : Nat) : Option Nat :=
  (strFind needle (hay.drop start)).map (· + start)

/-- Python `needle in hay` for strings. -/
def containsSub (needle hay : List Char) : Bool := (strFind needle hay).isSome

/-- Python slicing `hay[a:b]` (for `a b : Nat`; an empty list when `b ≤ a`). -/
def slice (l : List Char) (a b : Nat) : List Char := (l.drop a).take (b - a)

/-- Model of `re.search(hdr + '\n(.+?)$', content, re.MULTILINE)` for a literal `hdr`
(the `## Article Date` / `## Article Url` / `## Article Image` lookups).  The scan
finds the first occurrence of `hdr ++ "\n"` that is followed by at least one
character before the next newline (Python keeps scanning past occurrences whose
following line is empty, because `.+?` needs a character) and yields the rest of
that line. -/
def searchHeaderLine (hdr : List Char) : List Char → Option (List Char)
  | [] => none
  | c :: rest =>
    if (hdr ++ ['\n']).isPrefixOf (c :: rest) then
      let tail := (c :: rest).drop (hdr.length + 1)
      let grp := tail.takeWhile (· ≠ '\n')
      if grp.isEmpty then searchHeaderLine hdr rest else some grp
    else searchHeaderLine hdr rest

/-- Model of `re.search(hdr ++ '((?:.|\n)+?)(?:TERM|\Z)', content, re.MULTILINE)`:
find the first occurrence of the literal `hdr` followed by a non-empty block, the
block being delimited by `takeB` (which consumes up to and including the newline
preceding the terminator, or the end of input). -/
def searchBlock (hdr : List Char) (takeB : List Char → List Char) :
    List Char → Option (List Char)
  | [] => none
  | c :: rest =>
    if hdr.isPrefixOf (c :: rest) then
      let b := takeB ((c :: rest).drop hdr.length)
      if b.isEmpty then searchBlock hdr takeB rest else some b
    else searchBlock hdr takeB rest

/-- Lazy group of `((?:.|\n)+?)(?:^###|\Z)`: take characters until a newline directly
followed by `###` has just been consumed, or the input ends. -/
def takeFocalBlock : List Char → List Char
  | [] => []
  | c :: rest =>
    if c = '\n' && ("###".toList.isPrefixOf rest) then [c]
    else c :: takeFocalBlock rest

/-- The terminator `(?:^##[^#]|^##$)` of the pandoc speaker-notes block: a line
starting with `##` followed by a non-`#` character (newlines included, since
`[^#]` matches them) or by the end of input. -/
def notesTerm : List Char → Bool
  | '#' :: '#' :: r =>
    match r with
    | [] => true
    | c :: _ => c != '#'
  | _ => false

/-- Lazy group of `((?:.|\n)+?)(?:^##[^#]|^##$|\Z)` for the pandoc speaker notes. -/
def takeNotesBlock : List Char → List Char
  | [] => []
  | c :: rest =>
    if c = '\n' && notesTerm rest then [c] else c :: takeNotesBlock rest

/-- Group of `re.search(r'^\*\*Image:\*\*\s*(.+?)$', ...)` evaluated right after the
literal `**Image:**`: `\s*` may cross newlines; the group is the line fragment
starting at the first non-whitespace character.  (When nothing but whitespace
remains Python can still produce a whitespace-only group; it `.strip()`s to the
same empty result as the `none` this model returns, and nothing can follow it,
so downstream behaviour is identical.) -/
def imageFieldAt (after : List Char) : Option (List Char) :=
  let rest := after.dropWhile isPySpace
  if rest.isEmpty then none else some (rest.takeWhile (· ≠ '\n'))

/-- Scan of `re.search(r'^\*\*Image:\*\*\s*(.+?)$', content, re.MULTILINE)`; the
Boolean flag records whether the current position is a line start. -/
def searchImageField : List Char → Bool → Option (List Char)
  | [], _ => none
  | c :: rest, atStart =>
    if atStart && ("**Image:**".toList.isPrefixOf (c :: rest)) then
      match imageFieldAt ((c :: rest).drop 10) with
      | some g => some g
      | none => searchImageField rest (c = '\n')
    else searchImageField rest (c = '\n')

/-- A character allowed inside the bare-URL pattern `[^\s\]]`. -/
def isUrlChar (c : Char) : Bool := !(isPySpace c) && c != ']'

/-- Model of `re.search(r'(https?://[^\s\]]+)', s)`. -/
def searchBareUrl : List Char → Option (List Char)
  | [] => none
  | c :: rest =>
    (if "https://".toList.isPrefixOf (c :: rest) then
       let body := ((c :: rest).drop 8).takeWhile isUrlChar
       if body.isEmpty then none else some ("https://".toList ++ body)
     else if "http://".toList.isPrefixOf (c :: rest) then
       let body := ((c :: rest).drop 7).takeWhile isUrlChar
       if body.isEmpty then none else some ("http://".toList ++ body)
     else none).orElse (fun _ => searchBareUrl rest)

/-- Model of `re.search(r'\]\(([^)]+)\)', s)`: first `](` followed by a non-empty
parenthesis-free run and a closing `)`. -/
def searchBracketUrl : List Char → Option (List Char)
  | [] => none
  | c :: rest =>
    (if "](".toList.isPrefixOf (c :: rest) then
       let body := ((c :: rest).drop 2).takeWhile (· ≠ ')')
       let after := ((c :: rest).drop 2).dropWhile (· ≠ ')')
       if body.isEmpty then none
       else
         match after with
         | ')' :: _ => some body
         | _ => none
     else none).orElse (fun _ => searchBracketUrl rest)

/-- A line matched by `re.search(r'^# (.+?)$', content, re.MULTILINE)`: it starts
with `# ` and has at least one further character. -/
def isH1Line (l : List Char) : Bool := "# ".toList.isPrefixOf l && !(l.drop 2).isEmpty

/-- Text after the marker of the first level-1 heading line, if any. -/
def firstH1 : List (List Char) → Option (List Char)
  | [] => none
  | l :: ls => if isH1Line l then some (l.drop 2) else firstH1 ls

/-- The record returned by `parse_markdown_file` in both scripts. -/
structure ParsedDoc where
  title : List Char
  date : List Char
  link : List Char
  image : List Char
  focal_points : List (List Char)
  speaker_notes : List Char
deriving DecidableEq

/-! ### markdown_to_ppt.py : parse_markdown_file -/

/-- `title = title_match.group(1) if title_match else "Untitled"` (note: no strip). -/
def titlePpt (content : List Char) : List Char :=
  (firstH1 (splitNl content)).getD "Untitled".toList

def datePpt (content : List Char) : List Char :=
  match searchHeaderLine "## Article Date".toList content with
  | some g => pyStrip g
  | none => []

def linkPpt (content : List Char) : List Char :=
  match searchHeaderLine "## Article Url".toList content with
  | some g => pyStrip g
  | none => []

/-- Literal image extraction of markdown_to_ppt.py (lines 104-133): the
`## Article Image` section, then the `**Image:**` field, then URL extraction
from markdown link/image syntax and finally the first bare URL substring. -/
def imageLiteralPpt (content : List Char) : List Char :=
  let a1 :=
    match searchHeaderLine "## Article Image".toList content with
    | some g => pyStrip g
    | none => []
  let a2 :=
    if a1.isEmpty then
      match searchImageField content true with
      | some g => pyStrip g
      | none => []
    else a1
  if a2.isEmpty then a2
  else
    let a3 :=
      if a2.contains '[' && containsSub "](http".toList a2 then
        match searchBracketUrl a2 with
        | some u => u
        | none => a2
      else if containsSub "![".toList a2 && containsSub "](http".toList a2 then
        match searchBracketUrl a2 with
        | some u => u
        | none => a2
      else a2
    match searchBareUrl a3 with
    | some u => u
    | none => a3

/-- `line.startswith('• ') or line.startswith('- ')` (ppt version; `•` is U+2022). -/
def isBulletPpt (l : List Char) : Bool :=
  [Char.ofNat 0x2022, ' '].isPrefixOf l || "- ".toList.isPrefixOf l

/-- `line.startswith('**') and '**' in line[2:]`. -/
def isBoldLead (l : List Char) : Bool :=
  "**".toList.isPrefixOf l && containsSub "**".toList (l.drop 2)

/-- The stripped lines of the `## Article Content` block (`points_text.strip().split('\n')`
with each line stripped), empty when the block is absent. -/
def focalLinesPpt (content : List Char) : List (List Char) :=
  match searchBlock "## Article Content\n".toList takeFocalBlock content with
  | none => []
  | some block => (splitNl (pyStrip block)).map pyStrip

/-- The focal-point accumulation loop of markdown_to_ppt.py (lines 151-164). -/
def focalLoopPpt : List (List Char) → List (List Char)
  | [] => []
  | l :: ls =>
    if l.isEmpty then focalLoopPpt ls
    else if isBulletPpt l then pyStrip (l.drop 2) :: focalLoopPpt ls
    else if isBoldLead l then l :: focalLoopPpt ls
    else focalLoopPpt ls

def focalPointsPpt (content : List Char) : List (List Char) :=
  focalLoopPpt (focalLinesPpt content)

def italianHeader : List Char := "### **Speaker Notes (Italian)**:".toList
def englishHeader : List Char := "### **Speaker Notes (English)**:".toList

/-- Speaker-notes extraction of markdown_to_ppt.py (lines 168-199), built on
`str.find` positions exactly as in the source. -/
def speakerNotesPpt (content : List Char) : List Char :=
  let ipos := strFind italianHeader content
  let epos := strFind englishHeader content
  let s1 :=
    match ipos with
    | none => []
    | some ip =>
      let istart := ip + italianHeader.length
      let iend :=
        match epos with
        | some ep => ep
        | none =>
          match strFindFrom "\n## ".toList content istart with
          | some j => j
          | none => content.length
      let inotes := pyStrip (slice content istart iend)
      if inotes.isEmpty then []
      else "**Italian Notes:**\n".toList ++ inotes ++ "\n\n".toList
  let s2 :=
    match epos with
    | none => []
    | some ep =>
      let estart := ep + englishHeader.length
      let eend :=
        match strFindFrom "\n## ".toList content estart with
        | some j => j
        | none => content.length
      let enotes := pyStrip (slice content estart eend)
      if enotes.isEmpty then [] else "**English Notes:**\n".toList ++ enotes
  pyStrip (s1 ++ s2)

/-- `parse_markdown_file` of markdown_to_ppt.py, with the network fetch abstracted
as `fetch` (Python's `if fetched:` truthiness keeps the literal image when the
fetch returns nothing or an empty string). -/
def parse_markdown_file_ppt (content : List Char) (fetch : List Char → Option (List Char)) :
    ParsedDoc :=
  let article_link := linkPpt content
  let lit := imageLiteralPpt content
  let article_image :=
    match (if article_link.isEmpty then none else fetch article_link) with
    | some v => if v.isEmpty then lit else v
    | none => lit
  { title := titlePpt content
    date := datePpt content
    link := article_link
    image := article_image
    focal_points := focalPointsPpt content
    speaker_notes := speakerNotesPpt content }

/-! ### markdown_to_pandoc.py : parse_markdown_file -/

def titlePandoc (content : List Char) : List Char :=
  (firstH1 (splitNl content)).getD "Untitled".toList

def datePandoc (content : List Char) : List Char :=
  match searchHeaderLine "## Article Date".toList content with
  | some g => pyStrip g
  | none => []

def linkPandoc (content : List Char) : List Char :=
  match searchHeaderLine "## Article Url".toList content with
  | some g => pyStrip g
  | none => []

/-- pandoc version: only the `## Article Image` section, no further extraction. -/
def imageLiteralPandoc (content : List Char) : List Char :=
  match searchHeaderLine "## Article Image".toList content with
  | some g => pyStrip g
  | none => []

/-- The bullet test of markdown_to_pandoc.py line 115.  The file is mojibake-encoded:
the first startswith argument is the three characters U+201A U+00C4 U+00A2 followed
by a space (the UTF-8 bytes of `•` decoded as cp1252), not the single bullet
character the ppt script tests for. -/
def isBulletPandoc (l : List Char) : Bool :=
  [Char.ofNat 0x201A, Char.ofNat 0xC4, Char.ofNat 0xA2, ' '].isPrefixOf l
    || "- ".toList.isPrefixOf l

def focalLinesPandoc (content : List Char) : List (List Char) :=
  match searchBlock "## Article Content\n".toList takeFocalBlock content with
  | none => []
  | some block => (splitNl (pyStrip block)).map pyStrip

/-- The focal-point loop of markdown_to_pandoc.py (lines 111-119); `line[2:]` drops
two characters even for the four-character mojibake bullet prefix. -/
def focalLoopPandoc : List (List Char) → List (List Char)
  | [] => []
  | l :: ls =>
    if l.isEmpty then focalLoopPandoc ls
    else if isBulletPandoc l then pyStrip (l.drop 2) :: focalLoopPandoc ls
    else if isBoldLead l then l :: focalLoopPandoc ls
    else focalLoopPandoc ls

def focalPointsPandoc (content : List Char) : List (List Char) :=
  focalLoopPandoc (focalLinesPandoc content)

def speakerNotesPandoc (content : List Char) : List Char :=
  match searchBlock "### Speaker Notes\n".toList takeNotesBlock content with
  | some g => pyStrip g
  | none => []

/-- `parse_markdown_file` of markdown_to_pandoc.py with the fetch abstracted. -/
def parse_markdown_file_pandoc (content : List Char)
    (fetch : List Char → Option (List Char)) : ParsedDoc :=
  let article_link := linkPandoc content
  let lit := imageLiteralPandoc content
  let article_image :=
    match (if article_link.isEmpty then none else fetch article_link) with
    | some v => if v.isEmpty then lit else v
    | none => lit
  { title := titlePandoc content
    date := datePandoc content
    link := article_link
    image := article_image
    focal_points := focalPointsPandoc content
    speaker_notes := speakerNotesPandoc content }

/-! ### The retrying fetcher, abstracted over per-attempt outcomes.

An attempt either raises (network error / timeout), or yields a response body on
which the og:image regex either matches some URL or does not match. -/

inductive AttemptResult
  | err
  | body (m : Option (List Char))
deriving DecidableEq

/-- Loop body of `markdown_to_ppt.fetch_og_image_from_url` (lines 38-72): the list
holds the outcomes of the remaining iterations of `for attempt in range(max_retries)`
(so `rest.isEmpty` is `attempt == max_retries - 1`); the result pairs the returned
value with the total time slept.  A body with no regex match returns `None`
immediately; only an exception sleeps `retry_delay * 2 ** attempt` and retries. -/
def fetch_og_image_from_url_ppt_go (retry_delay : Nat) (attempt : Nat) :
    List AttemptResult → Option (List Char) × Nat
  | [] => (none, 0)
  | o :: rest =>
    match o with
    | .body (some v) => (some v, 0)
    | .body none => (none, 0)
    | .err =>
      if rest.isEmpty then (none, 0)
      else
        let r := fetch_og_image_from_url_ppt_go retry_delay (attempt + 1) rest
        (r.1, retry_delay * 2 ^ attempt + r.2)

/-- `fetch_og_image_from_url(url, max_retries=3, retry_delay=1)` of markdown_to_ppt.py:
`outcomes` are the outcomes the attempts would have, one per loop iteration. -/
def fetch_og_image_from_url_ppt (outcomes : List AttemptResult) :
    Option (List Char) × Nat :=
  fetch_og_image_from_url_ppt_go 1 0 outcomes

def pandocDelays : List Nat := [1, 2, 4]

/-- Loop body of `markdown_to_pandoc.fetch_og_image_from_url` (lines 40-70): a body
with no regex match falls out of the `try` block and the loop continues with the
next attempt WITHOUT sleeping; an exception sleeps `delays[attempt]` unless it was
the final attempt. -/
def fetch_og_image_from_url_pandoc_go (attempt : Nat) :
    List AttemptResult → Option (List Char) × Nat
  | [] => (none, 0)
  | o :: rest =>
    match o with
    | .body (some v) => (some v, 0)
    | .body none => fetch_og_image_from_url_pandoc_go (attempt + 1) rest
    | .err =>
      if rest.isEmpty then (none, 0)
      else
        let r := fetch_og_image_from_url_pandoc_go (attempt + 1) rest
        (r.1, pandocDelays.getD attempt 0 + r.2)

/-- `fetch_og_image_from_url(url)` of markdown_to_pandoc.py (max_retries = 3). -/
def fetch_og_image_from_url_pandoc (outcomes : List AttemptResult) :
    Option (List Char) × Nat :=
  fetch_og_image_from_url_pandoc_go 0 outcomes

/-! ### markdown_to_ppt.py : parse_markdown_formatting

The tokenizing regex (markdown_to_ppt.py line 265) recognizes, in this order:
bold `\*\*[^*]+\*\*`, underscore italic `_[^_]+_`, star italic `\*[^*]+\*`,
inline code (backtick, one or more non-backticks, backtick), strikethrough
`~~[^~]+~~`, a markdown link `\[[^\]]+\]\([^)]+\)`, and a plain run: one
character outside the delimiter set D = star/underscore/backtick/tilde/open
bracket, optionally followed by `[^D]*[^D\s]` (a D-free run up to its last
non-whitespace character).  Each alternative is deterministic: the bounded
character classes cannot cross their own closing marker, so greedy matching
plus backtracking yields a unique match, modelled by one total matcher per
alternative, tried in the regex's alternation order. -/

/-- The backtick character. -/
def btick : Char := Char.ofNat 96

/-- The delimiter characters excluded from the plain-run alternative. -/
def delims : List Char := ['*', '_', btick, '~', '[']

/-- A token matched by one alternative of the formatting regex.  The constructor
records which alternative matched; `raw` recovers the exact matched source text. -/
inductive MdTok
  | bold (mid : List Char)
  | undItal (mid : List Char)
  | starItal (mid : List Char)
  | code (mid : List Char)
  | strike (mid : List Char)
  | link (txt : List Char) (url : List Char)
  | word (s : List Char)
deriving DecidableEq

/-- The source text the token was matched from. -/
def MdTok.raw : MdTok → List Char
  | .bold m => '*' :: '*' :: m ++ ['*', '*']
  | .undItal m => '_' :: m ++ ['_']
  | .starItal m => '*' :: m ++ ['*']
  | .code m => btick :: m ++ [btick]
  | .strike m => '~' :: '~' :: m ++ ['~', '~']
  | .link t u => '[' :: t ++ [']', '('] ++ u ++ [')']
  | .word s => s

/-- `\*\*[^*]+\*\*`. -/
def tryBold : List Char → Option (MdTok × List Char)
  | c1 :: c2 :: rest =>
    if c1 = '*' ∧ c2 = '*' then
      let mid := rest.takeWhile (· ≠ '*')
      let rem := rest.dropWhile (· ≠ '*')
      if mid.isEmpty then none
      else
        match rem with
        | c3 :: c4 :: r => if c3 = '*' ∧ c4 = '*' then some (.bold mid, r) else none
        | _ => none
    else none
  | _ => none

/-- `_[^_]+_`. -/
def tryUnd : List Char → Option (MdTok × List Char)
  | c1 :: rest =>
    if c1 = '_' then
      let mid := rest.takeWhile (· ≠ '_')
      let rem := rest.dropWhile (· ≠ '_')
      if mid.isEmpty then none
      else
        match rem with
        | c2 :: r => if c2 = '_' then some (.undItal mid, r) else none
        | _ => none
    else none
  | _ => none

/-- `\*[^*]+\*` (tried only after the bold alternative fails). -/
def tryStarItal : List Char → Option (MdTok × List Char)
  | c1 :: rest =>
    if c1 = '*' then
      let mid := rest.takeWhile (· ≠ '*')
      let rem := rest.dropWhile (· ≠ '*')
      if mid.isEmpty then none
      else
        match rem with
        | c2 :: r => if c2 = '*' then some (.starItal mid, r) else none
        | _ => none
    else none
  | _ => none

/-- The inline-code alternative (backtick, one or more non-backticks, backtick). -/
def tryCode : List Char → Option (MdTok × List Char)
  | c1 :: rest =>
    if c1 = btick then
      let mid := rest.takeWhile (· ≠ btick)
      let rem := rest.dropWhile (· ≠ btick)
      if mid.isEmpty then none
      else
        match rem with
        | c2 :: r => if c2 = btick then some (.code mid, r) else none
        | _ => none
    else none
  | _ => none

/-- `~~[^~]+~~`. -/
def tryStrike : List Char → Option (MdTok × List Char)
  | c1 :: c2 :: rest =>
    if c1 = '~' ∧ c2 = '~' then
      let mid := rest.takeWhile (· ≠ '~')
      let rem := rest.dropWhile (· ≠ '~')
      if mid.isEmpty then none
      else
        match rem with
        | c3 :: c4 :: r => if c3 = '~' ∧ c4 = '~' then some (.strike mid, r) else none
        | _ => none
    else none
  | _ => none

/-- `\[[^\]]+\]\([^)]+\)`. -/
def tryLink : List Char → Option (MdTok × List Char)
  | c1 :: rest =>
    if c1 = '[' then
      let txt := rest.takeWhile (· ≠ ']')
      let rem := rest.dropWhile (· ≠ ']')
      if txt.isEmpty then none
      else
        match rem with
        | c2 :: c3 :: r2 =>
          if c2 = ']' ∧ c3 = '(' then
            let url := r2.takeWhile (· ≠ ')')
            let rem2 := r2.dropWhile (· ≠ ')')
            if url.isEmpty then none
            else
              match rem2 with
              | c4 :: r3 => if c4 = ')' then some (.link txt url, r3) else none
              | _ => none
          else none
        | _ => none
    else none
  | _ => none

/-- The plain-run alternative `[^D](?:[^D]*[^D\s])?` for delimiter set `D`: one
non-delimiter character, then (greedily, with the regex's backtracking) the
following delimiter-free run up to and including its last non-whitespace
character. -/
def tryWord : List Char → Option (MdTok × List Char)
  | [] => none
  | c :: rest =>
    if c ∈ delims then none
    else
      let run := rest.takeWhile (fun a => !(a ∈ delims))
      let rem := rest.dropWhile (fun a => !(a ∈ delims))
      let kept := (run.reverse.dropWhile isPySpace).reverse
      let trail := (run.reverse.takeWhile isPySpace).reverse
      some (.word (c :: kept), trail ++ rem)

/-- One step of `re.finditer`: the alternatives in the regex's order. -/
def tryMatch (l : List Char) : Option (MdTok × List Char) :=
  match tryBold l with
  | some r => some r
  | none =>
  match tryUnd l with
  | some r => some r
  | none =>
  match tryStarItal l with
  | some r => some r
  | none =>
  match tryCode l with
  | some r => some r
  | none =>
  match tryStrike l with
  | some r => some r
  | none =>
  match tryLink l with
  | some r => some r
  | none => tryWord l

/-- A scan element: a regex match, or one character at which the regex failed
(`re.finditer` skips it; the Python code collects such characters into `plain`
slices between matches). -/
inductive Seg
  | tok (t : MdTok)
  | gapc (c : Char)
deriving DecidableEq

def Seg.raw : Seg → List Char
  | .tok t => t.raw
  | .gapc c => [c]

/-- Fuelled `re.finditer` scan (any fuel at least the input length is exact). -/
def scanF : Nat → List Char → List Seg
  | 0, _ => []
  | fuel + 1, l =>
    match tryMatch l with
    | some (t, rest) => .tok t :: scanF fuel rest
    | none =>
      match l with
      | [] => []
      | c :: rest => .gapc c :: scanF fuel rest

/-- The `re.finditer` scan of one line. -/
def scan (l : List Char) : List Seg := scanF l.length l

/-- A token of the Python token list: a regex match tagged `'markdown'`, or a
maximal slice of skipped characters tagged `'plain'`. -/
inductive PTok
  | md (t : MdTok)
  | plain (g : List Char)
deriving DecidableEq

def PTok.raw : PTok → List Char
  | .md t => t.raw
  | .plain g => g

/-- Collect consecutive skipped characters into single `plain` slices, exactly as
the Python code slices `line[last_end:match.start()]` between matches. -/
def coalesce : List Seg → List PTok
  | [] => []
  | .tok t :: rest => .md t :: coalesce rest
  | .gapc c :: rest =>
    match coalesce rest with
    | .plain g :: more => .plain (c :: g) :: more
    | more => .plain [c] :: more

/-- The token list the Python loop builds for one line. -/
def toksOfLine (l : List Char) : List PTok := coalesce (scan l)

/-- The style flags applied to a run (`run.font.bold` etc., and whether a
hyperlink was attached). -/
structure RunStyle where
  bold : Bool
  italic : Bool
  code : Bool
  strikethrough : Bool
  link : Bool
deriving DecidableEq

def plainStyle : RunStyle := ⟨false, false, false, false, false⟩

/-- One run added to a paragraph: its text, style flags and hyperlink target.
This is the InlineSpan of the specification. -/
structure InlineSpan where
  text : List Char
  style : RunStyle
  linkTarget : List Char
deriving DecidableEq

/-- `clean_text`: the token text with the markers removed (for a link, the bracket
text; the target is not shown inline). -/
def MdTok.clean : MdTok → List Char
  | .bold m => m
  | .undItal m => m
  | .starItal m => m
  | .code m => m
  | .strike m => m
  | .link t _ => t
  | .word s => s

def MdTok.styleOf : MdTok → RunStyle
  | .bold _ => ⟨true, false, false, false, false⟩
  | .undItal _ => ⟨false, true, false, false, false⟩
  | .starItal _ => ⟨false, true, false, false, false⟩
  | .code _ => ⟨false, false, true, false, false⟩
  | .strike _ => ⟨false, false, false, true, false⟩
  | .link _ _ => ⟨false, false, false, false, true⟩
  | .word _ => plainStyle

def MdTok.targetOf : MdTok → List Char
  | .link _ u => u
  | _ => []

/-- The clean text of a Python token (`plain` tokens are emitted verbatim). -/
def PTok.clean : PTok → List Char
  | .md t => t.clean
  | .plain g => g

/-- The run a token contributes, if any: `if not token.strip() and
token_type == 'plain': continue` skips whitespace-only plain tokens; markdown
tokens are classified by their markers and stripped. -/
def runOfTok : PTok → Option InlineSpan
  | .md t => some ⟨t.clean, t.styleOf, t.targetOf⟩
  | .plain g => if (pyStrip g).isEmpty then none else some ⟨g, plainStyle, []⟩

/-- The runs of one non-blank line. -/
def runsOfLine (l : List Char) : List InlineSpan :=
  (toksOfLine l).filterMap runOfTok

/-- The paragraph loop of `parse_markdown_formatting` (lines 267-301): blank lines
before the first content line add nothing (the frame's initial empty paragraph is
reused by the first content line); later blank lines add an empty paragraph. -/
def formatLines : Bool → List (List Char) → List (List InlineSpan)
  | _, [] => []
  | first, l :: ls =>
    if (pyStrip l).isEmpty then
      (if first then [] else [[]]) ++ formatLines first ls
    else runsOfLine l :: formatLines false ls

/-- `parse_markdown_formatting(text_frame, text)`: the paragraphs (lists of runs)
left in the text frame.  When no content line exists the frame keeps its single
initial empty paragraph. -/
def parse_markdown_formatting (text : List Char) : List (List InlineSpan) :=
  let ps := formatLines true (splitNl text)
  if ps.isEmpty then [[]] else ps

/-- The excluded placeholder URL of `create_cover_slide` (ppt line 482) and
`create_cover_slide_markdown` (pandoc line 155). -/
def changelogUrl : List Char := "https://github.blog/changelog/".toList

/-- Guard `if image_url and image_url != "https://github.blog/changelog/"` of
markdown_to_ppt.create_cover_slide (line 482). -/
def coverAddsImagePpt (image_url : List Char) : Bool :=
  !image_url.isEmpty && image_url != changelogUrl

/-- The same guard in markdown_to_pandoc.create_cover_slide_markdown (line 155). -/
def coverAddsImagePandoc (image_url : List Char) : Bool :=
  !image_url.isEmpty && image_url != changelogUrl

/-- A fetch that always fails (used to instantiate the abstracted fetch in
concrete evaluations). -/
def fetchNone : List Char → Option (List Char) := fun _ => none

/-- A fetch that always succeeds with the value `v`. -/
def fetchConst (v : List Char) : List Char → Option (List Char) := fun _ => some v

/-- No character of the text is a markdown delimiter character. -/
def noDelims (l : List Char) : Bool := l.all (fun a => !delims.contains a)

/-- The concatenation the specification's invariant speaks about: all span texts
in order, with paragraph boundaries contributing the line breaks they stand for. -/
def spanTextsJoined (ps : List (List InlineSpan)) : List Char :=
  joinNl (ps.map (fun p => (p.map InlineSpan.text).flatten))

/-! ## Theorems -/

/-! ### C1: retry schedule of the fetcher -/

/-- C1 — counterexample.  With three network-error attempts the ppt fetcher
returns `none` after a cumulative backoff of 1 + 2 = 3 time units, not the
1 + 2 + 4 = 7 units the claim states (no sleep follows the final attempt); and a
successfully fetched body with no matching meta-image tag makes the ppt fetcher
return `none` immediately after the first attempt with zero delay, not after
3 attempts.  The pandoc fetcher also accumulates only 3 units. -/
theorem fetch_backoff_counterexample :
    fetch_og_image_from_url_ppt [.err, .err, .err] = (none, 3) ∧
    (3 : Nat) ≠ 1 + 2 + 4 ∧
    fetch_og_image_from_url_ppt [.body none, .err, .err] = (none, 0) ∧
    fetch_og_image_from_url_pandoc [.err, .err, .err] = (none, 3) :=
  ⟨rfl, by decide, rfl, rfl⟩

/-- C1 (amended): both fetchers make up to 3 attempts and never raise.  A raising
attempt with attempts remaining backs off exponentially (1 then 2 units), so after
three raising attempts the result is `none` with cumulative delay 1 + 2 = 3 units —
there is no sleep after the final attempt.  A non-raising attempt ends the loop at
once with no further delay: the ppt version returns its regex result immediately
(returning `none` without retry when the body has no matching tag), so the total
delay never exceeds 3 units. -/
theorem fetch_retry_schedule (outcomes : List AttemptResult)
    (hlen : outcomes.length = 3) :
    ((∀ o ∈ outcomes, o = AttemptResult.err) →
      fetch_og_image_from_url_ppt outcomes = (none, 3) ∧
      fetch_og_image_from_url_pandoc outcomes = (none, 3)) ∧
    (∀ m rest, outcomes = AttemptResult.body m :: rest →
      fetch_og_image_from_url_ppt outcomes = (m, 0)) ∧
    (fetch_og_image_from_url_ppt outcomes).2 ≤ 3 ∧
    (fetch_og_image_from_url_pandoc outcomes).2 ≤ 3 := by
  obtain ⟨a, b, c, rfl⟩ : ∃ a b c, outcomes = [a, b, c] := by
    match outcomes, hlen with
    | [a, b, c], _ => exact ⟨a, b, c, rfl⟩
  refine ⟨?_, ?_, ?_, ?_⟩
  · intro h
    have ha := h a (by simp)
    have hb := h b (by simp)
    have hc := h c (by simp)
    subst ha hb hc
    exact ⟨rfl, rfl⟩
  · rintro m rest heq
    injection heq with h1 h2
    subst h1
    cases m <;> rfl
  · rcases a with _ | (_ | va) <;> rcases b with _ | (_ | vb) <;>
      rcases c with _ | (_ | vc) <;>
      simp [fetch_og_image_from_url_ppt, fetch_og_image_from_url_ppt_go]
  · rcases a with _ | (_ | va) <;> rcases b with _ | (_ | vb) <;>
      rcases c with _ | (_ | vc) <;>
      simp [fetch_og_image_from_url_pandoc, fetch_og_image_from_url_pandoc_go,
        pandocDelays]

/-- C1 — witness for `fetch_retry_schedule` at the concrete outcome list
`[err, err, body (some "u")]`. -/
theorem fetch_retry_schedule_witness :
    fetch_og_image_from_url_ppt [.err, .err, .body (some ['u'])] = (some ['u'], 3) ∧
    (fetch_og_image_from_url_ppt [.err, .err, .body (some ['u'])]).2 ≤ 3 :=
  ⟨rfl, (fetch_retry_schedule [.err, .err, .body (some ['u'])] (by decide)).2.2.1⟩

/-! ### C10: the two extraction functions -/

/-- C10 — counterexample.  The two `parse_markdown_file` functions are not the
same extractor: on a document whose content block holds a `•`-bullet line the ppt
version yields the focal point while the pandoc version (whose bullet test is the
mojibake three-character sequence U+201A U+00C4 U+00A2) ignores the line, so the
returned records differ. -/
theorem extractors_differ :
    parse_markdown_file_ppt ("# T\n## Article Content\n• a".toList) fetchNone ≠
    parse_markdown_file_pandoc ("# T\n## Article Content\n• a".toList) fetchNone := by
  decide

/-- C10 (amended): with the fetch behaviour held fixed, the two extraction
functions agree on the title, date and link fields for every document (those three
lookups are character-identical in the two scripts); they do not agree in general
on the image, focal-point or speaker-notes fields. -/
theorem extractors_agree_title_date_link (content : List Char)
    (fetch : List Char → Option (List Char)) :
    (parse_markdown_file_ppt content fetch).title =
      (parse_markdown_file_pandoc content fetch).title ∧
    (parse_markdown_file_ppt content fetch).date =
      (parse_markdown_file_pandoc content fetch).date ∧
    (parse_markdown_file_ppt content fetch).link =
      (parse_markdown_file_pandoc content fetch).link :=
  ⟨rfl, rfl, rfl⟩

/-! ### C9: the placeholder/changelog URL -/

/-- C9 — counterexample.  `parse_markdown_file` itself can return the excluded
placeholder URL as the image field: the exclusion does not live in the extractor. -/
theorem extract_can_return_changelog :
    (parse_markdown_file_ppt
        ("## Article Image\nhttps://github.blog/changelog/".toList)
        fetchNone).image = changelogUrl := by
  decide

/-- C9 (amended): the extractor may return the placeholder/changelog-index URL in
the image field; the exclusion is applied by the slide renderers: both cover-slide
builders guard on `image_url and image_url != "https://github.blog/changelog/"`,
so an image is added to a cover slide only when the extracted value is non-empty
and differs from that URL. -/
theorem cover_excludes_changelog (content : List Char)
    (fetch : List Char → Option (List Char)) :
    (coverAddsImagePpt (parse_markdown_file_ppt content fetch).image = true →
      (parse_markdown_file_ppt content fetch).image ≠ changelogUrl ∧
      (parse_markdown_file_ppt content fetch).image ≠ []) ∧
    (coverAddsImagePandoc (parse_markdown_file_pandoc content fetch).image = true →
      (parse_markdown_file_pandoc content fetch).image ≠ changelogUrl ∧
      (parse_markdown_file_pandoc content fetch).image ≠ []) := by
  constructor <;>
  · intro h
    simp only [coverAddsImagePpt, coverAddsImagePandoc, Bool.and_eq_true,
      Bool.not_eq_true', List.isEmpty_eq_false, bne_iff_ne, ne_eq] at h
    exact ⟨h.2, h.1⟩

/-- C9 — witness for `cover_excludes_changelog` at a document with an ordinary
image URL. -/
theorem cover_excludes_changelog_witness :
    (parse_markdown_file_ppt ("## Article Image\nhttps://x.example/i.png".toList)
        fetchNone).image ≠ changelogUrl :=
  ((cover_excludes_changelog ("## Article Image\nhttps://x.example/i.png".toList)
      fetchNone).1 (by decide)).1

/-! ### C3: title extraction -/

theorem firstH1_of_all_false {ls : List (List Char)}
    (h : ∀ l ∈ ls, isH1Line l = false) : firstH1 ls = none := by
  induction ls with
  | nil => rfl
  | cons l ls ih =>
    have h0 := h l (by simp)
    simp only [firstH1]
    rw [if_neg (by simp [h0])]
    exact ih fun a ha => h a (by simp [ha])

theorem firstH1_of_exists {ls : List (List Char)}
    (h : ∃ l ∈ ls, isH1Line l = true) :
    ∃ pre l post, ls = pre ++ l :: post ∧ (∀ a ∈ pre, isH1Line a = false) ∧
      isH1Line l = true ∧ firstH1 ls = some (l.drop 2) := by
  induction ls with
  | nil => simp at h
  | cons hd tl ih =>
    by_cases hh : isH1Line hd = true
    · exact ⟨[], hd, tl, rfl, by simp, hh, by simp [firstH1, hh]⟩
    · have hh0 : isH1Line hd = false := by
        cases hhd : isH1Line hd
        · rfl
        · exact absurd hhd hh
      obtain ⟨l2, hl2, hl2t⟩ := h
      rcases List.mem_cons.mp hl2 with rfl | hmem
      · exact absurd hl2t hh
      · obtain ⟨pre, l, post, heq, hpre, hl, hfind⟩ := ih ⟨l2, hmem, hl2t⟩
        refine ⟨hd :: pre, l, post, by simp [heq], ?_, hl, ?_⟩
        · intro a ha
          rcases List.mem_cons.mp ha with rfl | ha2
          · exact hh0
          · exact hpre a ha2
        · simpa [firstH1, hh0] using hfind

/-- C3 — counterexample.  For the document `"# Hi \nbody"` (a level-1 heading line
whose text carries a trailing space) the extracted title is `"Hi "`, which is not
whitespace-trimmed: titles are taken verbatim including surrounding whitespace,
contradicting "no surrounding whitespace". -/
theorem title_keeps_whitespace :
    (parse_markdown_file_ppt ("# Hi \nbody".toList) fetchNone).title =
      "Hi ".toList ∧
    pyStrip ((parse_markdown_file_ppt ("# Hi \nbody".toList) fetchNone).title) ≠
      (parse_markdown_file_ppt ("# Hi \nbody".toList) fetchNone).title := by
  constructor
  · decide
  · decide

/-- C3 (amended): in both scripts, when some line of the document matches the
level-1 heading pattern (`# ` plus at least one further character) the title is the
text after the two marker characters of the first such line, taken verbatim (with
any leading/trailing whitespace of the heading text preserved, not trimmed); when
no line matches, the title is the sentinel "Untitled". -/
theorem title_extraction (content : List Char)
    (fetch : List Char → Option (List Char)) :
    ((∃ l ∈ splitNl content, isH1Line l = true) →
      ∃ pre l post, splitNl content = pre ++ l :: post ∧
        (∀ a ∈ pre, isH1Line a = false) ∧ isH1Line l = true ∧
        (parse_markdown_file_ppt content fetch).title = l.drop 2 ∧
        (parse_markdown_file_pandoc content fetch).title = l.drop 2) ∧
    ((∀ l ∈ splitNl content, isH1Line l = false) →
      (parse_markdown_file_ppt content fetch).title = "Untitled".toList ∧
      (parse_markdown_file_pandoc content fetch).title = "Untitled".toList) := by
  constructor
  · intro h
    obtain ⟨pre, l, post, heq, hpre, hl, hfind⟩ := firstH1_of_exists h
    exact ⟨pre, l, post, heq, hpre, hl,
      by simp [parse_markdown_file_ppt, titlePpt, hfind],
      by simp [parse_markdown_file_pandoc, titlePandoc, hfind]⟩
  · intro h
    have := firstH1_of_all_false h
    exact ⟨by simp [parse_markdown_file_ppt, titlePpt, this],
      by simp [parse_markdown_file_pandoc, titlePandoc, this]⟩

/-- C3 — witness for `title_extraction`: a document with no level-1 heading line
yields the "Untitled" sentinel. -/
theorem title_extraction_witness :
    (parse_markdown_file_ppt ("no heading here\n## Article Date\nx".toList)
        fetchNone).title = "Untitled".toList ∧
    (parse_markdown_file_pandoc ("no heading here\n## Article Date\nx".toList)
        fetchNone).title = "Untitled".toList :=
  (title_extraction ("no heading here\n## Article Date\nx".toList)
      fetchNone).2 (by decide)

/-! ### C4: focal points -/

theorem isBulletPpt_not_isBoldLead {l : List Char} (h : isBulletPpt l = true) :
    isBoldLead l = false := by
  cases l with
  | nil => simp [isBulletPpt, List.isPrefixOf] at h
  | cons c rest =>
    simp only [isBulletPpt, Bool.or_eq_true, List.isPrefixOf] at h
    have hc : c = Char.ofNat 0x2022 ∨ c = '-' := by
      rcases h with h | h <;> simp_all [List.isPrefixOf, BEq.beq] <;> tauto
    simp only [isBoldLead, List.isPrefixOf, Bool.and_eq_true]
    rcases hc with rfl | rfl <;> simp [BEq.beq]

theorem focalLoopPpt_eq_filterMap (ls : List (List Char)) :
    focalLoopPpt ls = ls.filterMap (fun l =>
      if l.isEmpty then none
      else if isBulletPpt l then some (pyStrip (l.drop 2))
      else if isBoldLead l then some l
      else none) := by
  induction ls with
  | nil => rfl
  | cons l ls ih =>
    simp only [focalLoopPpt, List.filterMap_cons]
    by_cases h1 : l = []
    · simp [h1, ih]
    · by_cases h2 : isBulletPpt l
      · simp [List.isEmpty_eq_false.mpr h1, h2, ih]
      · by_cases h3 : isBoldLead l
        · simp [List.isEmpty_eq_false.mpr h1, h2, h3, ih]
        · simp [List.isEmpty_eq_false.mpr h1, h2, h3, ih]

theorem focalLoopPpt_length (ls : List (List Char)) :
    (focalLoopPpt ls).length =
      ls.countP (fun l => isBulletPpt l) + ls.countP (fun l => isBoldLead l) := by
  induction ls with
  | nil => rfl
  | cons l ls ih =>
    simp only [List.countP_cons]
    by_cases h1 : l = []
    · subst h1
      have hb : isBulletPpt [] = false := by decide
      have hd : isBoldLead [] = false := by decide
      simp only [focalLoopPpt, List.isEmpty_nil, if_true]
      simp [ih, hb, hd]
    · by_cases h2 : isBulletPpt l
      · have h3 := isBulletPpt_not_isBoldLead h2
        simp only [focalLoopPpt, List.isEmpty_eq_false.mpr h1, Bool.false_eq_true,
          if_false, h2, if_true, List.length_cons, ih, h3]
        simp
        omega
      · by_cases h3 : isBoldLead l
        · simp only [focalLoopPpt, List.isEmpty_eq_false.mpr h1, Bool.false_eq_true,
            if_false, h2, h3, if_true, List.length_cons, ih]
          simp [h2]
          omega
        · simp only [focalLoopPpt, List.isEmpty_eq_false.mpr h1, Bool.false_eq_true,
            if_false, h2, h3, ih]
          simp [h2, h3]

/-- C4 — counterexample.  In a content block with exactly one bullet-marker line
(`-  a `) and one bold-lead-in line, `focal_points` has length 2, not 1: bold
lead-in lines are appended in addition to the N bullet lines.  Moreover the bullet
contribution is `"a"`, the remainder after the marker additionally
whitespace-trimmed, not the verbatim marker-stripped remainder `" a"`. -/
theorem focal_points_counterexample :
    (parse_markdown_file_ppt ("# T\n## Article Content\n-  a \n**B**: c".toList)
        fetchNone).focal_points = ["a".toList, "**B**: c".toList] ∧
    (focalLinesPpt ("# T\n## Article Content\n-  a \n**B**: c".toList)).countP
        (fun l => isBulletPpt l) = 1 ∧
    ¬ (2 : Nat) = 1 ∧
    "a".toList ≠ " a".toList := by
  refine ⟨by decide, by decide, by decide, by decide⟩

/-- C4 (amended): for every document, `focal_points` (ppt script) contains, in
source line order, one entry per bullet-marker line of the content block — the
remainder after the 2-character marker, whitespace-trimmed — and additionally one
verbatim entry per non-bullet line that starts with a bold marker and contains a
second bold marker later in the line; its length is therefore N + B where N counts
the bullet lines and B the bold-lead-in lines.  All other lines contribute
nothing. -/
theorem focal_points_shape (content : List Char)
    (fetch : List Char → Option (List Char)) :
    (parse_markdown_file_ppt content fetch).focal_points =
      (focalLinesPpt content).filterMap (fun l =>
        if l.isEmpty then none
        else if isBulletPpt l then some (pyStrip (l.drop 2))
        else if isBoldLead l then some l
        else none) ∧
    ((parse_markdown_file_ppt content fetch).focal_points).length =
      (focalLinesPpt content).countP (fun l => isBulletPpt l) +
        (focalLinesPpt content).countP (fun l => isBoldLead l) := by
  constructor
  · exact focalLoopPpt_eq_filterMap (focalLinesPpt content)
  · exact focalLoopPpt_length (focalLinesPpt content)

/-! ### C5: missing sections degrade to defaults -/

/-- C5: extraction is total (both embedded extractors are Lean functions, mirroring
that the Python code raises on no input), and every section that cannot be located
yields the documented default for that field only: "Untitled" for the title, the
empty string for date, link, image and speaker notes, and the empty list for the
focal points — independently of the other sections. -/
theorem missing_sections_default (content : List Char)
    (fetch : List Char → Option (List Char)) :
    (firstH1 (splitNl content) = none →
      (parse_markdown_file_ppt content fetch).title = "Untitled".toList ∧
      (parse_markdown_file_pandoc content fetch).title = "Untitled".toList) ∧
    (searchHeaderLine "## Article Date".toList content = none →
      (parse_markdown_file_ppt content fetch).date = [] ∧
      (parse_markdown_file_pandoc content fetch).date = []) ∧
    (searchHeaderLine "## Article Url".toList content = none →
      (parse_markdown_file_ppt content fetch).link = [] ∧
      (parse_markdown_file_pandoc content fetch).link = []) ∧
    (searchHeaderLine "## Article Image".toList content = none →
      searchImageField content true = none →
      searchHeaderLine "## Article Url".toList content = none →
      (parse_markdown_file_ppt content fetch).image = [] ∧
      (parse_markdown_file_pandoc content fetch).image = []) ∧
    (searchBlock "## Article Content\n".toList takeFocalBlock content = none →
      (parse_markdown_file_ppt content fetch).focal_points = [] ∧
      (parse_markdown_file_pandoc content fetch).focal_points = []) ∧
    (strFind italianHeader content = none → strFind englishHeader content = none →
      (parse_markdown_file_ppt content fetch).speaker_notes = []) ∧
    (searchBlock "### Speaker Notes\n".toList takeNotesBlock content = none →
      (parse_markdown_file_pandoc content fetch).speaker_notes = []) := by
  refine ⟨?_, ?_, ?_, ?_, ?_, ?_, ?_⟩
  · intro h
    exact ⟨by simp only [parse_markdown_file_ppt, titlePpt, h]; rfl,
      by simp only [parse_markdown_file_pandoc, titlePandoc, h]; rfl⟩
  · intro h
    exact ⟨by simp only [parse_markdown_file_ppt, datePpt, h],
      by simp only [parse_markdown_file_pandoc, datePandoc, h]⟩
  · intro h
    exact ⟨by simp only [parse_markdown_file_ppt, linkPpt, h],
      by simp only [parse_markdown_file_pandoc, linkPandoc, h]⟩
  · intro h1 h2 h3
    constructor
    · simp only [parse_markdown_file_ppt, linkPpt, imageLiteralPpt, h1, h2, h3]
      simp
    · simp only [parse_markdown_file_pandoc, linkPandoc, imageLiteralPandoc, h1, h3]
      simp
  · intro h
    exact ⟨by simp only [parse_markdown_file_ppt, focalPointsPpt, focalLinesPpt, h,
        focalLoopPpt],
      by simp only [parse_markdown_file_pandoc, focalPointsPandoc, focalLinesPandoc,
        h, focalLoopPandoc]⟩
  · intro h1 h2
    simp only [parse_markdown_file_ppt, speakerNotesPpt, h1, h2]
    decide
  · intro h
    simp only [parse_markdown_file_pandoc, speakerNotesPandoc, h]

/-- C5 — witness for `missing_sections_default` at the empty document: every field
takes its default. -/
theorem missing_sections_default_witness :
    (parse_markdown_file_ppt [] fetchNone).title = "Untitled".toList ∧
    (parse_markdown_file_ppt [] fetchNone).date = [] ∧
    (parse_markdown_file_ppt [] fetchNone).link = [] ∧
    (parse_markdown_file_ppt [] fetchNone).image = [] ∧
    (parse_markdown_file_ppt [] fetchNone).focal_points = [] ∧
    (parse_markdown_file_ppt [] fetchNone).speaker_notes = [] ∧
    (parse_markdown_file_pandoc [] fetchNone).speaker_notes = [] := by
  obtain ⟨h1, h2, h3, h4, h5, h6, h7⟩ :=
    missing_sections_default [] fetchNone
  exact ⟨(h1 rfl).1, (h2 rfl).1, (h3 rfl).1, (h4 rfl rfl rfl).1, (h5 rfl).1,
    h6 rfl rfl, h7 rfl⟩

/-! ### C6: fetched image takes precedence -/

/-- C6: in both scripts, when the document supplies a link (and whatever literal
image), a successful fetch (some non-empty value — the fetcher's regex group is
non-empty by construction) replaces the literal image with the fetched value, and
a failed fetch leaves the literal image in place. -/
theorem fetch_precedence (content : List Char)
    (fetch : List Char → Option (List Char)) :
    (∀ v, linkPpt content ≠ [] → imageLiteralPpt content ≠ [] →
      fetch (linkPpt content) = some v → v ≠ [] →
      (parse_markdown_file_ppt content fetch).image = v) ∧
    (linkPpt content ≠ [] → fetch (linkPpt content) = none →
      (parse_markdown_file_ppt content fetch).image = imageLiteralPpt content) ∧
    (∀ v, linkPandoc content ≠ [] → imageLiteralPandoc content ≠ [] →
      fetch (linkPandoc content) = some v → v ≠ [] →
      (parse_markdown_file_pandoc content fetch).image = v) ∧
    (linkPandoc content ≠ [] → fetch (linkPandoc content) = none →
      (parse_markdown_file_pandoc content fetch).image = imageLiteralPandoc content) := by
  refine ⟨?_, ?_, ?_, ?_⟩
  · intro v hlink _hlit hfetch hv
    simp [parse_markdown_file_ppt, List.isEmpty_eq_false.mpr hlink, hfetch,
      List.isEmpty_eq_false.mpr hv]
  · intro hlink hfetch
    simp [parse_markdown_file_ppt, List.isEmpty_eq_false.mpr hlink, hfetch]
  · intro v hlink _hlit hfetch hv
    simp [parse_markdown_file_pandoc, List.isEmpty_eq_false.mpr hlink, hfetch,
      List.isEmpty_eq_false.mpr hv]
  · intro hlink hfetch
    simp [parse_markdown_file_pandoc, List.isEmpty_eq_false.mpr hlink, hfetch]

/-! ### Tokenizer infrastructure for C2/C7/C8 -/

theorem tryBold_spec {l r : List Char} {t : MdTok} (h : tryBold l = some (t, r)) :
    t.raw ≠ [] ∧ t.raw ++ r = l := by
  match l with
  | [] => exact absurd h (by simp [tryBold])
  | [c] => exact absurd h (by simp [tryBold])
  | c1 :: c2 :: rest =>
    simp only [tryBold] at h
    split at h
    · next h12 =>
      split at h
      · exact absurd h (by simp)
      · next hmid =>
        split at h
        · next c3 c4 r2 heq =>
          split at h
          · next h34 =>
            obtain ⟨rfl, rfl⟩ := h12
            obtain ⟨rfl, rfl⟩ := h34
            injection h with h
            injection h with ht hr
            subst ht hr
            refine ⟨by simp [MdTok.raw], ?_⟩
            conv_rhs =>
              rw [← List.takeWhile_append_dropWhile (p := (· ≠ '*')) (l := rest), heq]
            simp [MdTok.raw]
          · exact absurd h (by simp)
        · exact absurd h (by simp)
    · exact absurd h (by simp)

theorem tryUnd_spec {l r : List Char} {t : MdTok} (h : tryUnd l = some (t, r)) :
    t.raw ≠ [] ∧ t.raw ++ r = l := by
  match l with
  | [] => exact absurd h (by simp [tryUnd])
  | c1 :: rest =>
    simp only [tryUnd] at h
    split at h
    · next h1 =>
      split at h
      · exact absurd h (by simp)
      · next hmid =>
        split at h
        · next c2 r2 heq =>
          split at h
          · next h2 =>
            subst h1 h2
            injection h with h
            injection h with ht hr
            subst ht hr
            refine ⟨by simp [MdTok.raw], ?_⟩
            conv_rhs =>
              rw [← List.takeWhile_append_dropWhile (p := (· ≠ '_')) (l := rest), heq]
            simp [MdTok.raw]
          · exact absurd h (by simp)
        · exact absurd h (by simp)
    · exact absurd h (by simp)

theorem tryStarItal_spec {l r : List Char} {t : MdTok}
    (h : tryStarItal l = some (t, r)) : t.raw ≠ [] ∧ t.raw ++ r = l := by
  match l with
  | [] => exact absurd h (by simp [tryStarItal])
  | c1 :: rest =>
    simp only [tryStarItal] at h
    split at h
    · next h1 =>
      split at h
      · exact absurd h (by simp)
      · next hmid =>
        split at h
        · next c2 r2 heq =>
          split at h
          · next h2 =>
            subst h1 h2
            injection h with h
            injection h with ht hr
            subst ht hr
            refine ⟨by simp [MdTok.raw], ?_⟩
            conv_rhs =>
              rw [← List.takeWhile_append_dropWhile (p := (· ≠ '*')) (l := rest), heq]
            simp [MdTok.raw]
          · exact absurd h (by simp)
        · exact absurd h (by simp)
    · exact absurd h (by simp)

theorem tryCode_spec {l r : List Char} {t : MdTok} (h : tryCode l = some (t, r)) :
    t.raw ≠ [] ∧ t.raw ++ r = l := by
  match l with
  | [] => exact absurd h (by simp [tryCode])
  | c1 :: rest =>
    simp only [tryCode] at h
    split at h
    · next h1 =>
      split at h
      · exact absurd h (by simp)
      · next hmid =>
        split at h
        · next c2 r2 heq =>
          split at h
          · next h2 =>
            subst h1 h2
            injection h with h
            injection h with ht hr
            subst ht hr
            refine ⟨by simp [MdTok.raw], ?_⟩
            conv_rhs =>
              rw [← List.takeWhile_append_dropWhile (p := (· ≠ btick)) (l := rest), heq]
            simp [MdTok.raw]
          · exact absurd h (by simp)
        · exact absurd h (by simp)
    · exact absurd h (by simp)

theorem tryStrike_spec {l r : List Char} {t : MdTok} (h : tryStrike l = some (t, r)) :
    t.raw ≠ [] ∧ t.raw ++ r = l := by
  match l with
  | [] => exact absurd h (by simp [tryStrike])
  | [c] => exact absurd h (by simp [tryStrike])
  | c1 :: c2 :: rest =>
    simp only [tryStrike] at h
    split at h
    · next h12 =>
      split at h
      · exact absurd h (by simp)
      · next hmid =>
        split at h
        · next c3 c4 r2 heq =>
          split at h
          · next h34 =>
            obtain ⟨rfl, rfl⟩ := h12
            obtain ⟨rfl, rfl⟩ := h34
            injection h with h
            injection h with ht hr
            subst ht hr
            refine ⟨by simp [MdTok.raw], ?_⟩
            conv_rhs =>
              rw [← List.takeWhile_append_dropWhile (p := (· ≠ '~')) (l := rest), heq]
            simp [MdTok.raw]
          · exact absurd h (by simp)
        · exact absurd h (by simp)
    · exact absurd h (by simp)

theorem tryLink_spec {l r : List Char} {t : MdTok} (h : tryLink l = some (t, r)) :
    t.raw ≠ [] ∧ t.raw ++ r = l := by
  match l with
  | [] => exact absurd h (by simp [tryLink])
  | c1 :: rest =>
    simp only [tryLink] at h
    split at h
    · next h1 =>
      split at h
      · exact absurd h (by simp)
      · next htxt =>
        split at h
        · next c2 c3 r2 heq =>
          split at h
          · next h23 =>
            split at h
            · exact absurd h (by simp)
            · next hurl =>
              split at h
              · next c4 r3 heq2 =>
                split at h
                · next h4 =>
                  obtain ⟨rfl, rfl⟩ := h23
                  subst h1 h4
                  injection h with h
                  injection h with ht hr
                  subst ht hr
                  refine ⟨by simp [MdTok.raw], ?_⟩
                  conv_rhs =>
                    rw [← List.takeWhile_append_dropWhile (p := (· ≠ ']'))
                        (l := rest), heq]
                  conv_rhs =>
                    rw [← List.takeWhile_append_dropWhile (p := (· ≠ ')'))
                        (l := r2), heq2]
                  simp [MdTok.raw]
                · exact absurd h (by simp)
              · exact absurd h (by simp)
          · exact absurd h (by simp)
        · exact absurd h (by simp)
    · exact absurd h (by simp)

theorem tryWord_spec {l r : List Char} {t : MdTok} (h : tryWord l = some (t, r)) :
    t.raw ≠ [] ∧ t.raw ++ r = l := by
  match l with
  | [] => exact absurd h (by simp [tryWord])
  | c :: rest =>
    simp only [tryWord] at h
    split at h
    · exact absurd h (by simp)
    · injection h with h
      injection h with ht hr
      subst ht hr
      refine ⟨by simp [MdTok.raw], ?_⟩
      simp only [MdTok.raw, List.cons_append, List.cons.injEq, true_and]
      rw [← List.append_assoc]
      have hkt :
          ((rest.takeWhile (fun a => !(a ∈ delims))).reverse.dropWhile
              isPySpace).reverse ++
            ((rest.takeWhile (fun a => !(a ∈ delims))).reverse.takeWhile
              isPySpace).reverse =
          rest.takeWhile (fun a => !(a ∈ delims)) := by
        rw [← List.reverse_append, List.takeWhile_append_dropWhile,
          List.reverse_reverse]
      rw [hkt]
      exact List.takeWhile_append_dropWhile _ _

theorem tryMatch_spec {l r : List Char} {t : MdTok} (h : tryMatch l = some (t, r)) :
    t.raw ≠ [] ∧ t.raw ++ r = l := by
  unfold tryMatch at h
  cases h1 : tryBold l with
  | some p => rw [h1] at h; injection h with h; subst h; exact tryBold_spec h1
  | none =>
  rw [h1] at h
  cases h2 : tryUnd l with
  | some p => rw [h2] at h; injection h with h; subst h; exact tryUnd_spec h2
  | none =>
  rw [h2] at h
  cases h3 : tryStarItal l with
  | some p => rw [h3] at h; injection h with h; subst h; exact tryStarItal_spec h3
  | none =>
  rw [h3] at h
  cases h4 : tryCode l with
  | some p => rw [h4] at h; injection h with h; subst h; exact tryCode_spec h4
  | none =>
  rw [h4] at h
  cases h5 : tryStrike l with
  | some p => rw [h5] at h; injection h with h; subst h; exact tryStrike_spec h5
  | none =>
  rw [h5] at h
  cases h6 : tryLink l with
  | some p => rw [h6] at h; injection h with h; subst h; exact tryLink_spec h6
  | none =>
  rw [h6] at h
  exact tryWord_spec h

theorem tryMatch_length {l r : List Char} {t : MdTok}
    (h : tryMatch l = some (t, r)) : r.length < l.length := by
  obtain ⟨hne, heq⟩ := tryMatch_spec h
  have := congrArg List.length heq
  simp only [List.length_append] at this
  have hpos : 0 < t.raw.length := List.length_pos.mpr hne
  omega

/-- A position whose head is not a delimiter always matches (via the plain-run
alternative), so `re.finditer` skips only delimiter characters. -/
theorem tryMatch_none {c : Char} {rest : List Char}
    (h : tryMatch (c :: rest) = none) : c ∈ delims := by
  by_contra hc
  have hw : tryWord (c :: rest) ≠ none := by
    simp [tryWord, hc]
  unfold tryMatch at h
  cases h1 : tryBold (c :: rest) <;> rw [h1] at h
  · cases h2 : tryUnd (c :: rest) <;> rw [h2] at h
    · cases h3 : tryStarItal (c :: rest) <;> rw [h3] at h
      · cases h4 : tryCode (c :: rest) <;> rw [h4] at h
        · cases h5 : tryStrike (c :: rest) <;> rw [h5] at h
          · cases h6 : tryLink (c :: rest) <;> rw [h6] at h
            · exact hw h
            · exact Option.noConfusion h
          · exact Option.noConfusion h
        · exact Option.noConfusion h
      · exact Option.noConfusion h
    · exact Option.noConfusion h
  · exact Option.noConfusion h

theorem scanF_nil (fuel : Nat) : scanF fuel [] = [] := by
  cases fuel with
  | zero => rfl
  | succ n => rfl

theorem scanF_raw : ∀ (fuel : Nat) (l : List Char), l.length ≤ fuel →
    ((scanF fuel l).map Seg.raw).flatten = l := by
  intro fuel
  induction fuel with
  | zero =>
    intro l h
    have : l = [] := List.length_eq_zero.mp (Nat.le_zero.mp h)
    subst this
    rfl
  | succ n ih =>
    intro l h
    cases htm : tryMatch l with
    | some p =>
      obtain ⟨t, r⟩ := p
      have hspec := tryMatch_spec htm
      have hlt := tryMatch_length htm
      simp only [scanF, htm, List.map_cons, List.flatten_cons, Seg.raw]
      rw [ih r (by omega)]
      exact hspec.2
    | none =>
      cases l with
      | nil => simp [scanF, htm]
      | cons c rest =>
        simp only [scanF, htm, List.map_cons, List.flatten_cons, Seg.raw,
          List.singleton_append]
        have : rest.length ≤ n := by
          simp only [List.length_cons] at h
          omega
        rw [ih rest this]

theorem scanF_gap : ∀ (fuel : Nat) (l : List Char), l.length ≤ fuel →
    ∀ c, Seg.gapc c ∈ scanF fuel l → c ∈ delims := by
  intro fuel
  induction fuel with
  | zero =>
    intro l h c hc
    have : l = [] := List.length_eq_zero.mp (Nat.le_zero.mp h)
    subst this
    simp [scanF] at hc
  | succ n ih =>
    intro l h c hc
    cases htm : tryMatch l with
    | some p =>
      obtain ⟨t, r⟩ := p
      have hlt := tryMatch_length htm
      simp only [scanF, htm, List.mem_cons] at hc
      rcases hc with hc | hc
      · exact Seg.noConfusion hc
      · exact ih r (by omega) c hc
    | none =>
      cases l with
      | nil => simp [scanF, htm] at hc
      | cons c0 rest =>
        simp only [scanF, htm, List.mem_cons] at hc
        rcases hc with hc | hc
        · have : c = c0 := by injection hc
          subst this
          exact tryMatch_none htm
        · have : rest.length ≤ n := by
            simp only [List.length_cons] at h
            omega
          exact ih rest this c hc

/-- `re.finditer` covers the whole line: the raw source of the matched and skipped
segments concatenates back to the input. -/
theorem scan_raw (l : List Char) : ((scan l).map Seg.raw).flatten = l :=
  scanF_raw l.length l le_rfl

theorem scan_gap {l : List Char} {c : Char} (h : Seg.gapc c ∈ scan l) :
    c ∈ delims :=
  scanF_gap l.length l le_rfl c h

theorem coalesce_gapc_nil {c0 : Char} {rest : List Seg} (h : coalesce rest = []) :
    coalesce (Seg.gapc c0 :: rest) = [PTok.plain [c0]] := by
  simp [coalesce, h]

theorem coalesce_gapc_md {c0 : Char} {rest : List Seg} {t : MdTok} {more : List PTok}
    (h : coalesce rest = PTok.md t :: more) :
    coalesce (Seg.gapc c0 :: rest) = PTok.plain [c0] :: PTok.md t :: more := by
  simp [coalesce, h]

theorem coalesce_gapc_plain {c0 : Char} {rest : List Seg} {g0 : List Char}
    {more : List PTok} (h : coalesce rest = PTok.plain g0 :: more) :
    coalesce (Seg.gapc c0 :: rest) = PTok.plain (c0 :: g0) :: more := by
  simp [coalesce, h]

theorem coalesce_raw : ∀ segs : List Seg,
    ((coalesce segs).map PTok.raw).flatten = (segs.map Seg.raw).flatten := by
  intro segs
  induction segs with
  | nil => rfl
  | cons s rest ih =>
    cases s with
    | tok t => simp [coalesce, PTok.raw, Seg.raw, ih]
    | gapc c0 =>
      cases hco : coalesce rest with
      | nil =>
        rw [coalesce_gapc_nil hco]
        rw [hco] at ih
        simp only [List.map_nil, List.flatten_nil] at ih
        simp [PTok.raw, Seg.raw, ← ih]
      | cons p more =>
        cases p with
        | md t =>
          rw [coalesce_gapc_md hco]
          rw [hco] at ih
          simp only [List.map_cons, List.flatten_cons, Seg.raw, PTok.raw] at ih ⊢
          simp [← ih]
        | plain g0 =>
          rw [coalesce_gapc_plain hco]
          rw [hco] at ih
          simp only [List.map_cons, List.flatten_cons, Seg.raw, PTok.raw] at ih ⊢
          simp [← ih]

theorem coalesce_plain_mem : ∀ segs : List Seg, ∀ g : List Char,
    PTok.plain g ∈ coalesce segs → g ≠ [] ∧ ∀ c ∈ g, Seg.gapc c ∈ segs := by
  intro segs
  induction segs with
  | nil =>
    intro g hg
    simp [coalesce] at hg
  | cons s rest ih =>
    intro g hg
    cases s with
    | tok t =>
      simp only [coalesce, List.mem_cons] at hg
      rcases hg with hg | hg
      · exact PTok.noConfusion hg
      · obtain ⟨hne, hmem⟩ := ih g hg
        exact ⟨hne, fun c hc => List.mem_cons_of_mem _ (hmem c hc)⟩
    | gapc c0 =>
      cases hco : coalesce rest with
      | nil =>
        rw [coalesce_gapc_nil hco] at hg
        simp only [List.mem_singleton] at hg
        injection hg with hg
        subst hg
        refine ⟨by simp, ?_⟩
        intro c hc
        simp only [List.mem_singleton] at hc
        subst hc
        exact List.mem_cons_self _ _
      | cons p more =>
        cases p with
        | md t =>
          rw [coalesce_gapc_md hco] at hg
          rcases List.mem_cons.mp hg with hg | hg
          · injection hg with hg
            subst hg
            refine ⟨by simp, ?_⟩
            intro c hc
            simp only [List.mem_singleton] at hc
            subst hc
            exact List.mem_cons_self _ _
          · have hin : PTok.plain g ∈ coalesce rest := by
              rw [hco]
              exact hg
            obtain ⟨hne, hmem⟩ := ih g hin
            exact ⟨hne, fun c hc => List.mem_cons_of_mem _ (hmem c hc)⟩
        | plain g0 =>
          rw [coalesce_gapc_plain hco] at hg
          rcases List.mem_cons.mp hg with hg | hg
          · injection hg with hg
            subst hg
            refine ⟨by simp, ?_⟩
            intro c hc
            rcases List.mem_cons.mp hc with rfl | hc
            · exact List.mem_cons_self _ _
            · have hg0 : PTok.plain g0 ∈ coalesce rest := by
                rw [hco]
                exact List.mem_cons_self _ _
              obtain ⟨_, hmem⟩ := ih g0 hg0
              exact List.mem_cons_of_mem _ (hmem c hc)
          · have hin : PTok.plain g ∈ coalesce rest := by
              rw [hco]
              exact List.mem_cons_of_mem _ hg
            obtain ⟨hne, hmem⟩ := ih g hin
            exact ⟨hne, fun c hc => List.mem_cons_of_mem _ (hmem c hc)⟩

/-- The token list of a line concatenates back to the line. -/
theorem toksOfLine_raw (l : List Char) : ((toksOfLine l).map PTok.raw).flatten = l := by
  unfold toksOfLine
  rw [coalesce_raw]
  exact scan_raw l

/-- Every `plain` token of a line is a non-empty run of delimiter characters
(the characters `re.finditer` skipped). -/
theorem toksOfLine_plain {l g : List Char} (h : PTok.plain g ∈ toksOfLine l) :
    g ≠ [] ∧ ∀ c ∈ g, c ∈ delims := by
  obtain ⟨hne, hmem⟩ := coalesce_plain_mem (scan l) g h
  exact ⟨hne, fun c hc => scan_gap (hmem c hc)⟩


/-! ### Lines, stripping, and the formatter lemmas -/

theorem splitNl_ne_nil (l : List Char) : splitNl l ≠ [] := by
  cases l with
  | nil => simp [splitNl]
  | cons c rest =>
    simp only [splitNl]
    split
    · simp
    · cases h : splitNl rest <;> simp

theorem joinNl_cons_cons (g g2 : List Char) (gs : List (List Char)) :
    joinNl (g :: g2 :: gs) = g ++ '\n' :: joinNl (g2 :: gs) := rfl

theorem joinNl_splitNl (l : List Char) : joinNl (splitNl l) = l := by
  induction l with
  | nil => rfl
  | cons c rest ih =>
    simp only [splitNl]
    by_cases hc : c = '\n'
    · subst hc
      rw [if_pos rfl]
      cases h : splitNl rest with
      | nil => exact absurd h (splitNl_ne_nil rest)
      | cons g gs =>
        rw [joinNl_cons_cons]
        rw [h] at ih
        simp [ih]
    · rw [if_neg hc]
      cases h : splitNl rest with
      | nil => exact absurd h (splitNl_ne_nil rest)
      | cons g gs =>
        rw [h] at ih
        cases gs with
        | nil => simpa [joinNl] using congrArg (c :: ·) ih
        | cons g2 gs2 =>
          rw [joinNl_cons_cons] at ih ⊢
          simpa using congrArg (c :: ·) ih

theorem splitNl_single {l : List Char} (h : ∀ c ∈ l, c ≠ '\n') :
    splitNl l = [l] := by
  induction l with
  | nil => rfl
  | cons c rest ih =>
    simp only [splitNl]
    rw [if_neg (h c (by simp))]
    rw [ih (fun a ha => h a (by simp [ha]))]

theorem takeWhile_all {p : Char → Bool} :
    ∀ {l : List Char}, (∀ a ∈ l, p a = true) → l.takeWhile p = l := by
  intro l
  induction l with
  | nil => intro h; rfl
  | cons c rest ih =>
    intro h
    rw [List.takeWhile_cons_of_pos (h c (by simp))]
    rw [ih (fun a ha => h a (by simp [ha]))]

theorem dropWhile_all {p : Char → Bool} :
    ∀ {l : List Char}, (∀ a ∈ l, p a = true) → l.dropWhile p = [] := by
  intro l
  induction l with
  | nil => intro h; rfl
  | cons c rest ih =>
    intro h
    rw [List.dropWhile_cons_of_pos (h c (by simp))]
    exact ih (fun a ha => h a (by simp [ha]))

theorem dropWhile_nil_all {p : Char → Bool} :
    ∀ {l : List Char}, l.dropWhile p = [] → ∀ a ∈ l, p a = true := by
  intro l
  induction l with
  | nil => intro _ a ha; simp at ha
  | cons c rest ih =>
    intro h a ha
    by_cases hc : p c = true
    · rw [List.dropWhile_cons_of_pos hc] at h
      rcases List.mem_cons.mp ha with rfl | ha
      · exact hc
      · exact ih h a ha
    · rw [List.dropWhile_cons_of_neg (by simpa using hc)] at h
      exact absurd h (by simp)

theorem mem_dropWhile_of_neg {p : Char → Bool} {c : Char} :
    ∀ {l : List Char}, c ∈ l → p c = false → c ∈ l.dropWhile p := by
  intro l
  induction l with
  | nil => intro h _; simp at h
  | cons a rest ih =>
    intro hc hp
    by_cases ha : p a = true
    · rw [List.dropWhile_cons_of_pos ha]
      rcases List.mem_cons.mp hc with rfl | hc
      · rw [hp] at ha
        exact absurd ha (by simp)
      · exact ih hc hp
    · rw [List.dropWhile_cons_of_neg (by simpa using ha)]
      exact hc

theorem pyStrip_ne_nil {l : List Char} {c : Char} (hc : c ∈ l)
    (hns : isPySpace c = false) : pyStrip l ≠ [] := by
  intro hcon
  unfold pyStrip rtrim ltrim at hcon
  have h1 : (l.dropWhile isPySpace).reverse.dropWhile isPySpace = [] :=
    List.reverse_eq_nil_iff.mp (by simpa using congrArg List.reverse hcon)
  have h2 : ∀ a ∈ l.dropWhile isPySpace, isPySpace a = true := by
    intro a ha
    exact dropWhile_nil_all h1 a (List.mem_reverse.mpr ha)
  have h3 : c ∈ l.dropWhile isPySpace := mem_dropWhile_of_neg hc hns
  rw [h2 c h3] at hns
  exact absurd hns (by simp)

theorem delims_not_space : ∀ c ∈ delims, isPySpace c = false := by decide

/-- A `plain` token is never dropped by the whitespace-skip branch: it consists of
delimiter characters only, and none of those is whitespace. -/
theorem plain_no_skip {l g : List Char} (h : PTok.plain g ∈ toksOfLine l) :
    (pyStrip g).isEmpty = false := by
  obtain ⟨hne, hdel⟩ := toksOfLine_plain h
  cases g with
  | nil => exact absurd rfl hne
  | cons c gr =>
    have hns : isPySpace c = false := delims_not_space c (hdel c (by simp))
    have := pyStrip_ne_nil (List.mem_cons_self c gr) hns
    simpa [List.isEmpty_eq_false] using this

theorem filterMap_runOfTok_texts : ∀ toks : List PTok,
    (∀ g, PTok.plain g ∈ toks → (pyStrip g).isEmpty = false) →
    (toks.filterMap runOfTok).map InlineSpan.text = toks.map PTok.clean := by
  intro toks
  induction toks with
  | nil => intro _; rfl
  | cons tk rest ih =>
    intro h
    cases tk with
    | md t =>
      rw [List.filterMap_cons]
      have hrt : runOfTok (.md t) = some ⟨t.clean, t.styleOf, t.targetOf⟩ := rfl
      rw [hrt]
      simp only [List.map_cons]
      rw [ih (fun g hg => h g (List.mem_cons_of_mem _ hg))]
      rfl
    | plain g =>
      have hg := h g (List.mem_cons_self _ _)
      rw [List.filterMap_cons]
      have hrt : runOfTok (.plain g) = some ⟨g, plainStyle, []⟩ := by
        simp [runOfTok, hg]
      rw [hrt]
      simp only [List.map_cons]
      rw [ih (fun g2 hg2 => h g2 (List.mem_cons_of_mem _ hg2))]
      rfl

/-- The span texts of a line are exactly the cleaned token texts, in order: the
whitespace-skip branch never fires. -/
theorem runsOfLine_texts (l : List Char) :
    (runsOfLine l).map InlineSpan.text = (toksOfLine l).map PTok.clean :=
  filterMap_runOfTok_texts (toksOfLine l) (fun _ hg => plain_no_skip hg)

theorem formatLines_content : ∀ (first : Bool) (ls : List (List Char)),
    (∀ l ∈ ls, (pyStrip l).isEmpty = false) →
    formatLines first ls = ls.map runsOfLine := by
  intro first ls
  induction ls generalizing first with
  | nil => intro _; rfl
  | cons l rest ih =>
    intro h
    have h0 := h l (by simp)
    simp only [formatLines]
    rw [if_neg (by simp [h0])]
    rw [ih false (fun a ha => h a (by simp [ha]))]
    rfl

theorem mem_of_getLast? {l : List Char} {c : Char} (h : l.getLast? = some c) :
    c ∈ l := by
  induction l with
  | nil => simp at h
  | cons a rest ih =>
    cases rest with
    | nil =>
      simp only [List.getLast?_singleton, Option.some.injEq] at h
      simp [h]
    | cons b rs =>
      rw [List.getLast?_cons_cons] at h
      exact List.mem_cons_of_mem _ (ih h)

theorem rev_no_trailing {L : List Char} {c : Char} (hlast : L.getLast? = some c)
    (hc : isPySpace c = false) :
    L.reverse.dropWhile isPySpace = L.reverse ∧
      L.reverse.takeWhile isPySpace = [] := by
  cases hrev : L.reverse with
  | nil => simp
  | cons a tl =>
    have h1 : L.reverse.head? = some a := by rw [hrev]; rfl
    rw [List.head?_reverse, hlast] at h1
    injection h1 with h1
    subst h1
    constructor
    · exact List.dropWhile_cons_of_neg (by simp [hc])
    · exact List.takeWhile_cons_of_neg (by simp [hc])

theorem tryMatch_word_of_not_delim {c0 : Char} {rest : List Char}
    (hc0 : c0 ∉ delims) :
    tryMatch (c0 :: rest) = tryWord (c0 :: rest) := by
  have h1 : c0 ≠ '*' := fun h => hc0 (by simp [delims, h])
  have h2 : c0 ≠ '_' := fun h => hc0 (by simp [delims, h])
  have h3 : c0 ≠ btick := fun h => hc0 (by simp [delims, h])
  have h4 : c0 ≠ '~' := fun h => hc0 (by simp [delims, h])
  have h5 : c0 ≠ '[' := fun h => hc0 (by simp [delims, h])
  have hb : tryBold (c0 :: rest) = none := by
    cases rest <;> simp [tryBold, h1]
  have hu : tryUnd (c0 :: rest) = none := by simp [tryUnd, h2]
  have hsi : tryStarItal (c0 :: rest) = none := by simp [tryStarItal, h1]
  have hcd : tryCode (c0 :: rest) = none := by simp [tryCode, h3]
  have hst : tryStrike (c0 :: rest) = none := by
    cases rest <;> simp [tryStrike, h4]
  have hlk : tryLink (c0 :: rest) = none := by simp [tryLink, h5]
  unfold tryMatch
  rw [hb, hu, hsi, hcd, hst, hlk]

theorem tryMatch_word_full {c0 : Char} {rest : List Char} {c : Char}
    (hc0 : c0 ∉ delims) (hall : ∀ a ∈ rest, a ∉ delims)
    (hlast : (c0 :: rest).getLast? = some c) (hc : isPySpace c = false) :
    tryMatch (c0 :: rest) = some (.word (c0 :: rest), []) := by
  rw [tryMatch_word_of_not_delim hc0]
  have hrun : rest.takeWhile (fun a => !(a ∈ delims)) = rest :=
    takeWhile_all (fun a ha => by simp [hall a ha])
  have hrem : rest.dropWhile (fun a => !(a ∈ delims)) = [] :=
    dropWhile_all (fun a ha => by simp [hall a ha])
  cases rest with
  | nil =>
    simp [tryWord, hc0]
  | cons r1 rs =>
    have hlast2 : (r1 :: rs).getLast? = some c := by
      rw [List.getLast?_cons_cons] at hlast
      exact hlast
    obtain ⟨hdrop, htake⟩ := rev_no_trailing hlast2 hc
    simp only [tryWord]
    rw [if_neg hc0]
    rw [hrun, hrem, hdrop, htake]
    simp

/-! ### C7: plain text yields a single unstyled span -/

/-- C7 — counterexample.  The non-empty delimiter-free text `"a "` does not
produce one span: its trailing space is tokenized separately (the plain-run
alternative of the regex cannot end in whitespace), giving the two spans
`"a"` and `" "`. -/
theorem plain_roundtrip_counterexample :
    noDelims ("a ".toList) = true ∧
    parse_markdown_formatting ("a ".toList) =
      [[⟨"a".toList, plainStyle, []⟩, ⟨" ".toList, plainStyle, []⟩]] ∧
    parse_markdown_formatting ("a ".toList) ≠
      [[⟨"a ".toList, plainStyle, []⟩]] := by
  refine ⟨by decide, by decide, by decide⟩

/-- C7 (amended): for every non-empty single-line text that contains no markdown
delimiter character and does not end in whitespace, the formatter returns exactly
one paragraph holding exactly one span, whose text is the input verbatim and whose
style flags are all clear (and no hyperlink target). -/
theorem plain_roundtrip (l : List Char) (c : Char)
    (hchars : ∀ a ∈ l, a ∉ delims ∧ a ≠ '\n')
    (hlast : l.getLast? = some c) (hc : isPySpace c = false) :
    parse_markdown_formatting l = [[⟨l, plainStyle, []⟩]] := by
  have hne : l ≠ [] := by
    intro h
    subst h
    simp at hlast
  obtain ⟨c0, rest, rfl⟩ : ∃ c0 rest, l = c0 :: rest := by
    cases l with
    | nil => exact absurd rfl hne
    | cons a b => exact ⟨a, b, rfl⟩
  have hsplit : splitNl (c0 :: rest) = [c0 :: rest] :=
    splitNl_single (fun a ha => (hchars a ha).2)
  have hpy : (pyStrip (c0 :: rest)).isEmpty = false := by
    have hcmem : c ∈ c0 :: rest := mem_of_getLast? hlast
    simpa [List.isEmpty_eq_false] using pyStrip_ne_nil hcmem hc
  have htm : tryMatch (c0 :: rest) = some (.word (c0 :: rest), []) :=
    tryMatch_word_full (hchars c0 (by simp)).1
      (fun a ha => (hchars a (by simp [ha])).1) hlast hc
  have hscan : scan (c0 :: rest) = [Seg.tok (.word (c0 :: rest))] := by
    unfold scan
    show scanF (rest.length + 1) (c0 :: rest) = _
    simp only [scanF, htm]
    rw [scanF_nil]
  have hruns : runsOfLine (c0 :: rest) = [⟨c0 :: rest, plainStyle, []⟩] := by
    unfold runsOfLine toksOfLine
    rw [hscan]
    rfl
  unfold parse_markdown_formatting
  rw [hsplit, formatLines_content true [c0 :: rest] ?_]
  · simp [hruns]
  · intro a ha
    simp only [List.mem_singleton] at ha
    subst ha
    exact hpy

/-- C7 — witness for `plain_roundtrip` at the text `"hi there"`. -/
theorem plain_roundtrip_witness :
    parse_markdown_formatting ("hi there".toList) =
      [[⟨"hi there".toList, plainStyle, []⟩]] :=
  plain_roundtrip ("hi there".toList) 'e' (by decide) (by decide) (by decide)

/-! ### C8: malformed markers fail open -/

/-- C8: the formatter fails open on malformed or unterminated markers.  For every
single-line text, concatenating the raw source of all tokens reproduces the line
(no character is dropped), and every `plain` token — the characters at which no
markup alternative matched, i.e. stray or unterminated markers — appears in the
output as a span with that exact text, all style flags clear, and no hyperlink:
marker characters are emitted literally and the total function never fails. -/
theorem malformed_markers_fail_open (l : List Char) :
    ((toksOfLine l).map PTok.raw).flatten = l ∧
    ∀ g, PTok.plain g ∈ toksOfLine l →
      InlineSpan.mk g plainStyle [] ∈ runsOfLine l ∧ g ≠ [] ∧
        g <:+: l := by
  refine ⟨toksOfLine_raw l, ?_⟩
  intro g hg
  obtain ⟨hne, _hdel⟩ := toksOfLine_plain hg
  have hskip : (pyStrip g).isEmpty = false := plain_no_skip hg
  refine ⟨?_, hne, ?_⟩
  · apply List.mem_filterMap.mpr
    exact ⟨.plain g, hg, by simp [runOfTok, hskip]⟩
  · have hmem : g ∈ (toksOfLine l).map PTok.raw :=
      List.mem_map_of_mem PTok.raw hg
    have := List.infix_of_mem_flatten hmem
    rwa [toksOfLine_raw l] at this

/-- C8 — witness for `malformed_markers_fail_open` at `"a ** b"` with the stray
unterminated marker `**`. -/
theorem malformed_markers_fail_open_witness :
    ((toksOfLine ("a ** b".toList)).map PTok.raw).flatten = "a ** b".toList ∧
    InlineSpan.mk ("**".toList) plainStyle [] ∈ runsOfLine ("a ** b".toList) :=
  ⟨(malformed_markers_fail_open ("a ** b".toList)).1,
    ((malformed_markers_fail_open ("a ** b".toList)).2 ("**".toList)
      (by decide)).1⟩

/-! ### C2: concatenating span texts -/

/-- C2 — counterexample.  For the input `"a\n \nb"` — which contains no markdown
delimiter characters at all, so "the original text with markup markers removed" is
the text itself — the formatter yields the paragraphs `[["a"], [], ["b"]]`: the
whitespace-only middle line is replaced by an empty paragraph, and concatenating
all span texts (joining paragraphs with the newlines they stand for) gives
`"a\n\nb"` ≠ `"a\n \nb"`; its interior space is dropped, so whitespace is not
always preserved. -/
theorem span_concat_counterexample :
    noDelims ("a\n \nb".toList) = true ∧
    parse_markdown_formatting ("a\n \nb".toList) =
      [[⟨"a".toList, plainStyle, []⟩], [], [⟨"b".toList, plainStyle, []⟩]] ∧
    spanTextsJoined (parse_markdown_formatting ("a\n \nb".toList)) ≠
      "a\n \nb".toList := by
  refine ⟨by decide, by decide, by decide⟩

/-- C2 (amended): for every text all of whose lines contain a non-whitespace
character, the formatter produces one paragraph of spans per line, the span texts
of each line are exactly its tokens' marker-stripped texts in order (plain tokens
verbatim, styled tokens with their markers removed, links contributing the bracket
text with the target moved to `linkTarget`), and re-inserting each token's raw
source in place of its stripped text reproduces the original text exactly —
whitespace inside such lines is preserved.  Texts with whitespace-only lines are
excluded: those lines become empty paragraphs (and are dropped entirely before the
first content line). -/
theorem span_concat_reconstruction (text : List Char)
    (h : ∀ l ∈ splitNl text, (pyStrip l).isEmpty = false) :
    parse_markdown_formatting text = (splitNl text).map runsOfLine ∧
    joinNl ((splitNl text).map
      (fun l => ((toksOfLine l).map PTok.raw).flatten)) = text ∧
    ∀ l ∈ splitNl text,
      (runsOfLine l).map InlineSpan.text = (toksOfLine l).map PTok.clean := by
  refine ⟨?_, ?_, ?_⟩
  · unfold parse_markdown_formatting
    have hmap : ((splitNl text).map runsOfLine).isEmpty = false := by
      simp only [List.isEmpty_eq_false, ne_eq, List.map_eq_nil_iff]
      exact splitNl_ne_nil text
    rw [formatLines_content true _ h, if_neg (by simp [hmap])]
  · rw [List.map_congr_left (fun l _ => toksOfLine_raw l)]
    rw [List.map_id']
    exact joinNl_splitNl text
  · intro l _
    exact runsOfLine_texts l

/-- C2 — witness for `span_concat_reconstruction` at the single-line text
`"Use **bold** now"`. -/
theorem span_concat_reconstruction_witness :
    parse_markdown_formatting ("Use **bold** now".toList) =
      (splitNl ("Use **bold** now".toList)).map runsOfLine ∧
    (runsOfLine ("Use **bold** now".toList)).map InlineSpan.text =
      (toksOfLine ("Use **bold** now".toList)).map PTok.clean :=
  ⟨(span_concat_reconstruction ("Use **bold** now".toList) (by decide)).1,
    (span_concat_reconstruction ("Use **bold** now".toList) (by decide)).2.2
      ("Use **bold** now".toList) (by decide)⟩

/-- C6 — witness for `fetch_precedence`: a document with a literal image and a
link whose fetch succeeds gets the fetched URL; with the fetch failing it keeps
the literal one. -/
theorem fetch_precedence_witness :
    (parse_markdown_file_ppt
        ("## Article Url\nhttps://e.x/p\n## Article Image\nhttp://lit/i.png".toList)
        (fetchConst ("http://fetched/o.png".toList))).image =
      "http://fetched/o.png".toList ∧
    (parse_markdown_file_ppt
        ("## Article Url\nhttps://e.x/p\n## Article Image\nhttp://lit/i.png".toList)
        fetchNone).image = "http://lit/i.png".toList := by
  constructor
  · exact (fetch_precedence
        ("## Article Url\nhttps://e.x/p\n## Article Image\nhttp://lit/i.png".toList)
        (fetchConst ("http://fetched/o.png".toList))).1
      ("http://fetched/o.png".toList) (by decide) (by decide) rfl (by decide)
  · have h := (fetch_precedence
        ("## Article Url\nhttps://e.x/p\n## Article Image\nhttp://lit/i.png".toList)
        fetchNone).2.1 (by decide) rfl
    rw [h]
    decide

end GhUpdates
